import Mathlib

/-!
Verification development for the Jasome XML metrics reporting script
(`main.py`).  The script parses an XML report into a nested
dict/list/string structure (via `xmltodict`), walks it recursively
collecting four per-method metrics (`VG`, `Ci`, `Di`, `TLOC`), computes
averages and summary statistics, and prints a fixed-format report.

The embedding below mirrors the Python source:
* `Node` is the generic tree produced by `xmltodict.parse`: a Python
  value that is a string, `None`, a dict (ordered association list with
  unique-in-practice keys), or a list.
* Python runtime errors that the script can hit (`ValueError` from
  `float`, `TypeError`/`AttributeError` from dynamic access,
  `ZeroDivisionError` from an empty-sequence average) are the `PyErr`
  type, and fallible computations return `Except PyErr`.
* `parseFloat` models the core of Python `float()` on strings: optional
  sign, decimal digits with an optional fractional part and an optional
  exponent.  (Surrounding whitespace, digit-group underscores and the
  `inf`/`nan` spellings accepted by CPython are outside the inputs this
  report format produces and are not modelled.)
* Printing is modelled symbolically: each `print` of the reporter
  becomes one `OutLine`, carrying the exact numeric value rendered (for
  the standard-deviation line, the sample variance whose square root is
  rendered; the two-decimal formatting is injectively abstracted into
  the constructor arguments).
* File reading and `xmltodict.parse` are the external world: `main`
  takes the existence bit of the input path and the parsed tree.
-/

inductive PyErr where
  | valueError
  | typeError
  | attributeError
  | keyError
  | zeroDivisionError
  deriving DecidableEq, Repr

/-- A Python value as produced by `xmltodict.parse`: a string, `None`,
a dict (association list in insertion order), or a list. -/
inductive Node where
  | str : String → Node
  | null : Node
  | dict : List (String × Node) → Node
  | list : List Node → Node

/-- The four parallel metric sequences accumulated by
`parse_jasome_xml` (the `metrics` dict of the source, in insertion
order of its keys). -/
structure Metrics where
  mccabe_cyclomatic_complexity : List ℚ
  system_complexity : List ℚ
  data_complexity : List ℚ
  total_lines_of_code : List ℚ
  deriving DecidableEq, Repr

def Metrics.empty : Metrics := ⟨[], [], [], []⟩

def Metrics.append (a b : Metrics) : Metrics :=
  ⟨a.mccabe_cyclomatic_complexity ++ b.mccabe_cyclomatic_complexity,
   a.system_complexity ++ b.system_complexity,
   a.data_complexity ++ b.data_complexity,
   a.total_lines_of_code ++ b.total_lines_of_code⟩

/-- The `results` dict built by `parse_jasome_xml`. -/
structure Results where
  total_methods : ℕ
  avg_mccabe_cyclomatic_complexity : ℚ
  avg_system_complexity : ℚ
  avg_data_complexity : ℚ
  avg_total_lines_of_code : ℚ
  deriving DecidableEq, Repr

/-! ### Dict primitives (Python dict lookup and membership) -/

def lookupN : List (String × Node) → String → Option Node
  | [], _ => none
  | (k, v) :: rest, key => if k = key then some v else lookupN rest key

def hasKey (kvs : List (String × Node)) (key : String) : Bool :=
  (lookupN kvs key).isSome

/-- Python `node == 'lit'` for a dynamic value: true exactly when the
value is the string itself. -/
def isStrEq (n : Node) (s : String) : Bool :=
  match n with
  | .str t => t = s
  | _ => false

/-- Substring test on strings (Python `'needle' in hay`). -/
def charsPre : List Char → List Char → Bool
  | [], _ => true
  | _ :: _, [] => false
  | a :: as, b :: bs => a == b && charsPre as bs

def charsSub (needle : List Char) : List Char → Bool
  | [] => charsPre needle []
  | b :: bs => charsPre needle (b :: bs) || charsSub needle bs

def strContainsSub (hay needle : String) : Bool :=
  charsSub needle.toList hay.toList

/-- Python `key in node` for a dynamic `node`: key membership for a
dict, substring test for a string, element equality for a list, and a
`TypeError` for `None`. -/
def pyContains (needle : String) : Node → Except PyErr Bool
  | .dict kvs => .ok (hasKey kvs needle)
  | .str s => .ok (strContainsSub s needle)
  | .list ns => .ok (ns.any fun n => isStrEq n needle)
  | .null => .error .typeError

/-- Python `node[key]` for a dynamic `node`: dict lookup (`KeyError`
when absent), `TypeError` on a string, list or `None`. -/
def pySubscript : Node → String → Except PyErr Node
  | .dict kvs, key =>
    match lookupN kvs key with
    | some v => .ok v
    | none => .error .keyError
  | _, _ => .error .typeError

/-- Python `node.get(key, default)`: only dicts have `.get`; anything
else raises `AttributeError`. -/
def pyGet : Node → String → Node → Except PyErr Node
  | .dict kvs, key, dflt => .ok ((lookupN kvs key).getD dflt)
  | _, _, _ => .error .attributeError

/-! ### Python `float()` on strings -/

def digitsToNat (cs : List Char) : ℕ :=
  cs.foldl (fun a c => a * 10 + (c.toNat - 48)) 0

def takeDigits : List Char → List Char × List Char
  | [] => ([], [])
  | c :: cs =>
    if c.isDigit then
      let p := takeDigits cs
      (c :: p.1, p.2)
    else ([], c :: cs)

def parseSign : List Char → Bool × List Char
  | '+' :: cs => (false, cs)
  | '-' :: cs => (true, cs)
  | cs => (false, cs)

def applySign (neg : Bool) (q : ℚ) : ℚ := if neg then -q else q

def parseExponentPart (cs : List Char) : Option ℤ :=
  match cs with
  | [] => none
  | _ =>
    let p := parseSign cs
    let d := takeDigits p.2
    if d.1.isEmpty || !d.2.isEmpty then none
    else some (if p.1 then -(digitsToNat d.1 : ℤ) else (digitsToNat d.1 : ℤ))

/-- The discrete shape of a numeric string: sign, integer-part value,
fractional-part value and digit count, exponent.  `none` when the
string is not numeric. -/
def parseFloatRep (s : String) : Option (Bool × ℕ × ℕ × ℕ × ℤ) :=
  let p := parseSign s.toList
  let ip := takeDigits p.2
  let fp :=
    match ip.2 with
    | '.' :: r => takeDigits r
    | _ => (([] : List Char), ip.2)
  if ip.1.isEmpty && fp.1.isEmpty then none
  else
    match fp.2 with
    | [] => some (p.1, digitsToNat ip.1, digitsToNat fp.1, fp.1.length, 0)
    | 'e' :: r => (parseExponentPart r).map fun e => (p.1, digitsToNat ip.1, digitsToNat fp.1, fp.1.length, e)
    | 'E' :: r => (parseExponentPart r).map fun e => (p.1, digitsToNat ip.1, digitsToNat fp.1, fp.1.length, e)
    | _ => none

def ratOfRep : Bool × ℕ × ℕ × ℕ × ℤ → ℚ
  | (neg, ip, fv, fl, e) =>
    applySign neg (((ip : ℚ) + (fv : ℚ) / (10 : ℚ) ^ fl) * (10 : ℚ) ^ e)

/-- Python `float(s)` on a string: optional sign, decimal digits with
optional fractional part, optional `e`/`E` exponent; `none` when the
string is not numeric (Python raises `ValueError`). -/
def parseFloat (s : String) : Option ℚ :=
  (parseFloatRep s).map ratOfRep

/-- Python `float(v)` on a dynamic value: parses strings, raises
`ValueError` on a non-numeric string and `TypeError` on `None`, dicts
and lists. -/
def pyFloat : Node → Except PyErr ℚ
  | .str s =>
    match parseFloat s with
    | some q => .ok q
    | none => .error .valueError
  | _ => .error .typeError

/-! ### The extractor (`extract_method_metrics` in the source) -/

/-- The single-vs-list normalization of the source
(`if not isinstance(x, list): x = [x]`). -/
def toNodeList : Node → List Node
  | .list ns => ns
  | n => [n]

def isDictOrList : Node → Bool
  | .dict _ => true
  | .list _ => true
  | _ => false

def isList : Node → Bool
  | .list _ => true
  | _ => false

/-- Lines 40-59 of the source: read `@name` (default `''`) and `@value`
(default `'0'`) from one metric entry and append `float(value)` to the
sequence selected by the name, ignoring unrecognized names. -/
def process_metric (metric : Node) (acc : Metrics) : Except PyErr Metrics :=
  match pyGet metric "@name" (.str "") with
  | .error e => .error e
  | .ok nm =>
    match pyGet metric "@value" (.str "0") with
    | .error e => .error e
    | .ok v =>
      if isStrEq nm "VG" then
        match pyFloat v with
        | .error e => .error e
        | .ok q => .ok { acc with mccabe_cyclomatic_complexity := acc.mccabe_cyclomatic_complexity ++ [q] }
      else if isStrEq nm "Ci" then
        match pyFloat v with
        | .error e => .error e
        | .ok q => .ok { acc with system_complexity := acc.system_complexity ++ [q] }
      else if isStrEq nm "Di" then
        match pyFloat v with
        | .error e => .error e
        | .ok q => .ok { acc with data_complexity := acc.data_complexity ++ [q] }
      else if isStrEq nm "TLOC" then
        match pyFloat v with
        | .error e => .error e
        | .ok q => .ok { acc with total_lines_of_code := acc.total_lines_of_code ++ [q] }
      else .ok acc

/-- The `for metric in method_metrics` loop. -/
def process_metrics_list : List Node → Metrics → Except PyErr Metrics
  | [], acc => .ok acc
  | metric :: rest, acc =>
    match process_metric metric acc with
    | .error e => .error e
    | .ok acc1 => process_metrics_list rest acc1

/-- Lines 33-59 of the source: one iteration of the
`for method in methods` loop, with the short-circuit
`if 'Metrics' in method and 'Metric' in method['Metrics']` guard and
the single-vs-list normalization of `method['Metrics']['Metric']`. -/
def process_method (method : Node) (acc : Metrics) : Except PyErr Metrics :=
  match pyContains "Metrics" method with
  | .error e => .error e
  | .ok false => .ok acc
  | .ok true =>
    match pySubscript method "Metrics" with
    | .error e => .error e
    | .ok mnode =>
      match pyContains "Metric" mnode with
      | .error e => .error e
      | .ok false => .ok acc
      | .ok true =>
        match pySubscript mnode "Metric" with
        | .error e => .error e
        | .ok ment => process_metrics_list (toNodeList ment) acc

/-- The `for method in methods` loop. -/
def process_methods : List Node → Metrics → Except PyErr Metrics
  | [], acc => .ok acc
  | method :: rest, acc =>
    match process_method method acc with
    | .error e => .error e
    | .ok acc1 => process_methods rest acc1

/-- The method-handling part of one visit to a dict node (lines 26-59):
if the dict has a `'Method'` key, normalize its value to a list and run
the method loop; otherwise do nothing. -/
def method_part (kvs : List (String × Node)) (acc : Metrics) : Except PyErr Metrics :=
  if hasKey kvs "Method" then
    process_methods (toNodeList ((lookupN kvs "Method").getD .null)) acc
  else .ok acc

mutual

/-- The recursive walker `extract_method_metrics` of the source, with
the mutated closure variable `metrics` made an explicit accumulator. -/
def extract_method_metrics : Node → Metrics → Except PyErr Metrics
  | .dict kvs, acc =>
    match method_part kvs acc with
    | .error e => .error e
    | .ok acc1 => extract_children kvs acc1
  | .list ns, acc => extract_list ns acc
  | _, acc => .ok acc

/-- The `for key, value in node.items()` loop: recurse into every value
that is a dict or a list. -/
def extract_children : List (String × Node) → Metrics → Except PyErr Metrics
  | [], acc => .ok acc
  | (_, v) :: rest, acc =>
    if isDictOrList v then
      match extract_method_metrics v acc with
      | .error e => .error e
      | .ok acc1 => extract_children rest acc1
    else extract_children rest acc

/-- The `for item in node` loop on list nodes. -/
def extract_list : List Node → Metrics → Except PyErr Metrics
  | [], acc => .ok acc
  | v :: rest, acc =>
    match extract_method_metrics v acc with
    | .error e => .error e
    | .ok acc1 => extract_list rest acc1

end

/-! ### Aggregation (lines 74-100 of the source) -/

/-- Python `sum(xs) / len(xs)`: raises `ZeroDivisionError` on an empty
sequence. -/
def pyAvg (xs : List ℚ) : Except PyErr ℚ :=
  if xs.length = 0 then .error .zeroDivisionError
  else .ok (xs.sum / (xs.length : ℚ))

/-- Lines 74-99: the `results` dict, with the four averages left at `0`
when `total_methods = 0` and otherwise computed in source order. -/
def compute_results (m : Metrics) : Except PyErr Results :=
  if m.mccabe_cyclomatic_complexity.length > 0 then
    match pyAvg m.mccabe_cyclomatic_complexity with
    | .error e => .error e
    | .ok a =>
      match pyAvg m.system_complexity with
      | .error e => .error e
      | .ok b =>
        match pyAvg m.data_complexity with
        | .error e => .error e
        | .ok c =>
          match pyAvg m.total_lines_of_code with
          | .error e => .error e
          | .ok d =>
            .ok ⟨m.mccabe_cyclomatic_complexity.length, a, b, c, d⟩
  else .ok ⟨m.mccabe_cyclomatic_complexity.length, 0, 0, 0, 0⟩

/-- `parse_jasome_xml` minus the file read and `xmltodict.parse`: the
walk from the parsed tree followed by the average computation. -/
def parse_jasome_xml (data : Node) : Except PyErr (Results × Metrics) :=
  match extract_method_metrics data Metrics.empty with
  | .error e => .error e
  | .ok m =>
    match compute_results m with
    | .error e => .error e
    | .ok r => .ok (r, m)

/-! ### The reporter (`display_results`, lines 102-129) -/

/-- One printed line of `display_results`, with numeric formatting
abstracted into the constructor arguments. -/
inductive OutLine where
  | rule (c : Char)
  | title
  | totalMethods (n : ℕ)
  | avgHeader
  | avgLine (label : String) (value : ℚ)
  | addStatsHeader
  | metricHeader (label : String)
  | statMin (value : ℚ)
  | statMax (value : ℚ)
  | statMedian (value : ℚ)
  | statStdDev (sampleVariance : ℚ)
  | statStdDevNA
  deriving DecidableEq, Repr

def listMin : List ℚ → ℚ
  | [] => 0
  | x :: xs => xs.foldl min x

def listMax : List ℚ → ℚ
  | [] => 0
  | x :: xs => xs.foldl max x

def insertSorted (x : ℚ) : List ℚ → List ℚ
  | [] => [x]
  | y :: ys => if x ≤ y then x :: y :: ys else y :: insertSorted x ys

def sortQ (xs : List ℚ) : List ℚ := xs.foldr insertSorted []

/-- `statistics.median`: middle element of the sorted values, or the
mean of the two middle elements for an even count. -/
def pyMedian (xs : List ℚ) : ℚ :=
  let s := sortQ xs
  let n := s.length
  if n % 2 = 1 then s.getD (n / 2) 0
  else (s.getD (n / 2 - 1) 0 + s.getD (n / 2) 0) / 2

/-- The sample variance (the square of `statistics.stdev`). -/
def sampleVariance (xs : List ℚ) : ℚ :=
  let n : ℚ := xs.length
  let mean := xs.sum / n
  (xs.map fun x => (x - mean) ^ 2).sum / (n - 1)

def replaceUnderscores (s : String) : String :=
  (s.toList.map fun c => if c = '_' then ' ' else c).asString

/-- Python `str.title()`: uppercase each letter that follows a
non-letter, lowercase every other letter. -/
def titleCase (s : String) : String :=
  (s.toList.foldl
    (fun st c =>
      (c.isAlpha,
       st.2 ++ [if c.isAlpha then (if st.1 then c.toLower else c.toUpper) else c]))
    (false, ([] : List Char))).2.asString

/-- Lines 121-129: the per-metric block of the additional-statistics
section, emitted only for a non-empty sequence. -/
def metricStats (label : String) (values : List ℚ) : List OutLine :=
  if values = [] then []
  else
    [.metricHeader (titleCase (replaceUnderscores label)),
     .statMin (listMin values),
     .statMax (listMax values),
     .statMedian (pyMedian values),
     if values.length > 1 then .statStdDev (sampleVariance values) else .statStdDevNA]

/-- `display_results`: the sequence of printed lines. -/
def display_results (results : Results) (metrics : Metrics) : List OutLine :=
  [.rule '=', .title, .rule '=',
   .totalMethods results.total_methods,
   .rule '-', .avgHeader, .rule '-',
   .avgLine "McCabe Cyclomatic Complexity" results.avg_mccabe_cyclomatic_complexity,
   .avgLine "System Complexity" results.avg_system_complexity,
   .avgLine "Data Complexity" results.avg_data_complexity,
   .avgLine "Total Lines of Code (TLOC)" results.avg_total_lines_of_code,
   .rule '='] ++
  (if results.total_methods > 0 then
    .addStatsHeader :: .rule '-' ::
      (metricStats "mccabe_cyclomatic_complexity" metrics.mccabe_cyclomatic_complexity ++
       metricStats "system_complexity" metrics.system_complexity ++
       metricStats "data_complexity" metrics.data_complexity ++
       metricStats "total_lines_of_code" metrics.total_lines_of_code)
  else [])

/-- A line belonging to the additional-statistics section (everything
`display_results` can print after the closing banner). -/
def isAddStatsLine : OutLine → Bool
  | .addStatsHeader => true
  | .metricHeader _ => true
  | .statMin _ => true
  | .statMax _ => true
  | .statMedian _ => true
  | .statStdDev _ => true
  | .statStdDevNA => true
  | _ => false

/-! ### `main` (lines 131-160) -/

/-- The observable outcome of one run of `main`: the usage hint printed
when the path does not exist, the statistics report, or the
error-plus-traceback printed by the top-level catch-all handler. -/
inductive ProgramOutput where
  | usageHint (path : String)
  | report (lines : List OutLine)
  | errorTrace (e : PyErr)
  deriving DecidableEq, Repr

/-- The source's `main`, with the file system abstracted to the
existence bit of the argument path and the Loader (file read plus
`xmltodict.parse`) abstracted to the parsed tree.  (Lean reserves the
name `main` for executable entry points, hence the suffix.) -/
def main_run (fileExists : Bool) (path : String) (data : Node) : ProgramOutput :=
  if !fileExists then .usageHint path
  else
    match parse_jasome_xml data with
    | .ok rm => .report (display_results rm.1 rm.2)
    | .error e => .errorTrace e

/-- The process exit status: the Python `main` returns `None` on every
path and never calls `sys.exit`, so the interpreter exits with status 0
for every outcome. -/
def exit_status (_ : ProgramOutput) : ℕ := 0

/-! ### Predicates and relations used by the claims -/

mutual

/-- No dict anywhere in the tree carries a `'Method'` key, i.e. the
input contains zero method nodes. -/
def noMethodKey : Node → Bool
  | .dict kvs => !hasKey kvs "Method" && noMethodKeyKvs kvs
  | .list ns => noMethodKeyList ns
  | _ => true

def noMethodKeyKvs : List (String × Node) → Bool
  | [] => true
  | (_, v) :: rest => noMethodKey v && noMethodKeyKvs rest

def noMethodKeyList : List Node → Bool
  | [] => true
  | v :: rest => noMethodKey v && noMethodKeyList rest

end

/-- The nodes the recursive walk visits: a node reaches itself, a dict
reaches whatever its dict-or-list values reach, and a list reaches
whatever its items reach.  This mirrors exactly the recursion guards of
`extract_method_metrics`. -/
inductive Reaches : Node → Node → Prop where
  | refl (n : Node) : Reaches n n
  | dictChild {kvs : List (String × Node)} {k : String} {v m : Node} :
      (k, v) ∈ kvs → isDictOrList v = true → Reaches v m → Reaches (.dict kvs) m
  | listChild {ns : List Node} {v m : Node} :
      v ∈ ns → Reaches v m → Reaches (.list ns) m

/-- The metrics the walk collects directly at one node (its
method-handling part run on an empty accumulator), not counting
anything found deeper in the recursion. -/
def directContrib (n : Node) : Except PyErr Metrics :=
  match n with
  | .dict kvs => method_part kvs Metrics.empty
  | _ => .ok Metrics.empty

/-- Componentwise sublist order on the four metric sequences. -/
def MetricsLe (a b : Metrics) : Prop :=
  a.mccabe_cyclomatic_complexity.Sublist b.mccabe_cyclomatic_complexity ∧
  a.system_complexity.Sublist b.system_complexity ∧
  a.data_complexity.Sublist b.data_complexity ∧
  a.total_lines_of_code.Sublist b.total_lines_of_code

/-- An accumulator-passing step is a homomorphism when running it on
any accumulator is running it on the empty accumulator and appending:
the step only ever appends to the sequences, in a manner independent of
what was collected before. -/
def IsHom (f : Metrics → Except PyErr Metrics) : Prop :=
  ∀ acc, f acc = (f Metrics.empty).map fun d => acc.append d

/-- The methods list the walk would iterate at a node: present exactly
when the node is a dict with a `'Method'` key, the value normalized to
a list. -/
def methodListOf (n : Node) : Option (List Node) :=
  match n with
  | .dict kvs => (lookupN kvs "Method").map toNodeList
  | _ => none

/-- The normalized metric-entry list of a method on the clean path of
the source's guard: the method is a dict whose `'Metrics'` value is a
dict carrying a `'Metric'` key. -/
def cleanMetricEntries (method : Node) : Option (List Node) :=
  match method with
  | .dict kvs =>
    match lookupN kvs "Metrics" with
    | some (.dict mkvs) =>
      match lookupN mkvs "Metric" with
      | some ment => some (toNodeList ment)
      | none => none
    | _ => none
  | _ => none

/-- A metric entry whose `@name` is one of the four recognized codes
but whose `@value` attribute is present and not a numeric string. -/
def badRecognizedEntry (entry : Node) : Bool :=
  match entry with
  | .dict kvs =>
    (match lookupN kvs "@name" with
     | some (.str nm) => nm = "VG" || nm = "Ci" || nm = "Di" || nm = "TLOC"
     | _ => false) &&
    (match lookupN kvs "@value" with
     | some (.str s) => (parseFloat s).isNone
     | _ => false)
  | _ => false

/-- A metric entry (a dict, as every entry the walk can process without
error is) whose `@name` is not one of the four recognized codes. -/
def isUnrecognizedEntry (entry : Node) : Bool :=
  match entry with
  | .dict kvs =>
    !(isStrEq ((lookupN kvs "@name").getD (.str "")) "VG" ||
      isStrEq ((lookupN kvs "@name").getD (.str "")) "Ci" ||
      isStrEq ((lookupN kvs "@name").getD (.str "")) "Di" ||
      isStrEq ((lookupN kvs "@name").getD (.str "")) "TLOC")
  | _ => false

/-- Appending one value to the sequence selected by a recognized metric
name (the dispatch of lines 44-59). -/
def appendMetricByName (nm : String) (q : ℚ) (acc : Metrics) : Metrics :=
  if nm = "VG" then { acc with mccabe_cyclomatic_complexity := acc.mccabe_cyclomatic_complexity ++ [q] }
  else if nm = "Ci" then { acc with system_complexity := acc.system_complexity ++ [q] }
  else if nm = "Di" then { acc with data_complexity := acc.data_complexity ++ [q] }
  else if nm = "TLOC" then { acc with total_lines_of_code := acc.total_lines_of_code ++ [q] }
  else acc

/-! ### Sample inputs for concrete witnesses -/

def entryVG3 : Node := .dict [("@name", .str "VG"), ("@value", .str "3")]

def methodVGOnly : Node := .dict [("Metrics", .dict [("Metric", entryVG3)])]

def methodFull : Node := .dict [("Metrics", .dict [("Metric", .list
  [entryVG3,
   .dict [("@name", .str "Ci"), ("@value", .str "5")],
   .dict [("@name", .str "Di"), ("@value", .str "2")],
   .dict [("@name", .str "TLOC"), ("@value", .str "40")]])])]

def treeFull : Node :=
  .dict [("Project", .dict [("Package", .dict [("Class", .dict [("Method", methodFull)])])])]

def classFull : Node := .dict [("Class", .dict [("Method", methodFull)])]

def treeVGOnly : Node := .dict [("Method", methodVGOnly)]

def methodBad : Node := .dict [("Metrics", .dict [("Metric",
  .dict [("@name", .str "VG"), ("@value", .str "abc")])])]

def treeBad : Node := .dict [("Method", methodBad)]

def treeNoMethods : Node :=
  .dict [("Project", .dict [("Package", .dict [("Class", .str "Empty")])])]

/-! ### Basic lemmas: `Metrics.append` is a monoid, sublist facts -/

theorem Metrics.append_empty (a : Metrics) : a.append Metrics.empty = a := by
  simp [Metrics.append, Metrics.empty]

theorem Metrics.empty_append (a : Metrics) : Metrics.empty.append a = a := by
  simp [Metrics.append, Metrics.empty]

theorem Metrics.append_assoc (a b c : Metrics) :
    (a.append b).append c = a.append (b.append c) := by
  simp [Metrics.append]

theorem metricsLe_refl (a : Metrics) : MetricsLe a a :=
  ⟨List.Sublist.refl _, List.Sublist.refl _, List.Sublist.refl _, List.Sublist.refl _⟩

theorem metricsLe_trans {a b c : Metrics} (h1 : MetricsLe a b) (h2 : MetricsLe b c) :
    MetricsLe a c :=
  ⟨h1.1.trans h2.1, h1.2.1.trans h2.2.1, h1.2.2.1.trans h2.2.2.1, h1.2.2.2.trans h2.2.2.2⟩

theorem metricsLe_append_left (a d : Metrics) : MetricsLe a (a.append d) :=
  ⟨List.sublist_append_left _ _, List.sublist_append_left _ _,
   List.sublist_append_left _ _, List.sublist_append_left _ _⟩

theorem metricsLe_append_right (a d : Metrics) : MetricsLe d (a.append d) :=
  ⟨List.sublist_append_right _ _, List.sublist_append_right _ _,
   List.sublist_append_right _ _, List.sublist_append_right _ _⟩

theorem metricsLe_empty (a : Metrics) : MetricsLe Metrics.empty a :=
  ⟨List.nil_sublist _, List.nil_sublist _, List.nil_sublist _, List.nil_sublist _⟩

/-! ### The homomorphism layer -/

theorem isHom_ok : IsHom (fun acc => .ok acc) := by
  intro acc
  simp [Except.map, Metrics.append_empty]

theorem isHom_comp {f g : Metrics → Except PyErr Metrics} (hf : IsHom f) (hg : IsHom g) :
    IsHom (fun acc =>
      match f acc with
      | .error e => .error e
      | .ok a => g a) := by
  intro acc
  rcases h0 : f Metrics.empty with e | d
  · have := hf acc
    rw [h0] at this
    simp [Except.map] at this
    simp [this, h0, Except.map]
  · have hfa := hf acc
    rw [h0] at hfa
    simp [Except.map] at hfa
    have hga := hg (acc.append d)
    rcases hg0 : g Metrics.empty with e2 | d2 <;>
      rw [hg0] at hga <;> simp [Except.map] at hga <;>
      · have hgd := hg d
        rw [hg0] at hgd
        simp [Except.map] at hgd
        simp [hfa, h0, hgd, hga, Except.map, Metrics.append_assoc]

theorem process_metric_hom (metric : Node) : IsHom (process_metric metric) := by
  intro acc
  unfold process_metric
  rcases pyGet metric "@name" (.str "") with e | nm
  · simp [Except.map]
  rcases pyGet metric "@value" (.str "0") with e | v
  · simp [Except.map]
  rcases hb1 : isStrEq nm "VG" with _ | _ <;>
  rcases hb2 : isStrEq nm "Ci" with _ | _ <;>
  rcases hb3 : isStrEq nm "Di" with _ | _ <;>
  rcases hb4 : isStrEq nm "TLOC" with _ | _ <;>
  simp [hb1, hb2, hb3, hb4, Except.map, Metrics.append_empty] <;>
  rcases pyFloat v with e | q <;>
  simp [Except.map, Metrics.append, Metrics.empty]

theorem process_metrics_list_hom (entries : List Node) : IsHom (process_metrics_list entries) := by
  induction entries with
  | nil => exact isHom_ok
  | cons metric rest ih =>
    have h := isHom_comp (process_metric_hom metric) ih
    intro acc
    have := h acc
    simpa [process_metrics_list] using this

theorem process_method_hom (method : Node) : IsHom (process_method method) := by
  intro acc
  unfold process_method
  rcases h1 : pyContains "Metrics" method with e | b
  · simp [Except.map]
  rcases b with _ | _
  · simp [Except.map, Metrics.append_empty]
  rcases h2 : pySubscript method "Metrics" with e | mnode
  · simp [Except.map]
  rcases h3 : pyContains "Metric" mnode with e | b2
  · simp [h3, Except.map]
  rcases b2 with _ | _
  · simp [h3, Except.map, Metrics.append_empty]
  rcases h4 : pySubscript mnode "Metric" with e | ment
  · simp [h3, h4, Except.map]
  · simp only [h3, h4]
    simpa using process_metrics_list_hom (toNodeList ment) acc

theorem process_methods_hom (methods : List Node) : IsHom (process_methods methods) := by
  induction methods with
  | nil => exact isHom_ok
  | cons method rest ih =>
    have h := isHom_comp (process_method_hom method) ih
    intro acc
    have := h acc
    simpa [process_methods] using this

theorem method_part_hom (kvs : List (String × Node)) : IsHom (method_part kvs) := by
  intro acc
  unfold method_part
  rcases hasKey kvs "Method" with _ | _
  · simpa using isHom_ok acc
  · simpa using process_methods_hom (toNodeList ((lookupN kvs "Method").getD .null)) acc

/-! ### Induction over the tree -/

theorem sizeOf_lt_of_mem_dict {k : String} {v : Node} {kvs : List (String × Node)}
    (h : (k, v) ∈ kvs) : sizeOf v < sizeOf (Node.dict kvs) := by
  have h1 := List.sizeOf_lt_sizeOf_of_mem h
  simp only [Prod.mk.sizeOf_spec, Node.dict.sizeOf_spec] at h1 ⊢
  omega

theorem sizeOf_lt_of_mem_list {v : Node} {ns : List Node} (h : v ∈ ns) :
    sizeOf v < sizeOf (Node.list ns) := by
  have h1 := List.sizeOf_lt_sizeOf_of_mem h
  simp only [Node.list.sizeOf_spec]
  omega

/-- Structural induction for `Node` with membership-based hypotheses
for the two nested-list constructors. -/
def node_induction (P : Node → Prop)
    (hstr : ∀ s, P (.str s)) (hnull : P .null)
    (hdict : ∀ kvs, (∀ k v, (k, v) ∈ kvs → P v) → P (.dict kvs))
    (hlist : ∀ ns, (∀ v, v ∈ ns → P v) → P (.list ns)) : ∀ n, P n
  | .str s => hstr s
  | .null => hnull
  | .dict kvs => hdict kvs fun _ v hm =>
      node_induction P hstr hnull hdict hlist v
  | .list ns => hlist ns fun v hm =>
      node_induction P hstr hnull hdict hlist v
termination_by n => sizeOf n
decreasing_by
  · exact sizeOf_lt_of_mem_dict hm
  · exact sizeOf_lt_of_mem_list hm

theorem extract_children_hom_of (kvs : List (String × Node))
    (h : ∀ k v, (k, v) ∈ kvs → IsHom (extract_method_metrics v)) :
    IsHom (extract_children kvs) := by
  induction kvs with
  | nil =>
    intro acc
    simp [extract_children, Except.map, Metrics.append_empty]
  | cons kv rest ih =>
    obtain ⟨k, v⟩ := kv
    have ihrest : IsHom (extract_children rest) :=
      ih fun k2 v2 hm => h k2 v2 (List.mem_cons_of_mem _ hm)
    intro acc
    rcases hio : isDictOrList v with _ | _
    · simp only [extract_children, hio, Bool.false_eq_true, if_false]
      exact ihrest acc
    · have hcomp := isHom_comp (h k v (List.mem_cons_self _ _)) ihrest
      have := hcomp acc
      simp only [extract_children, hio, if_true]
      simpa using this

theorem extract_list_hom_of (ns : List Node)
    (h : ∀ v ∈ ns, IsHom (extract_method_metrics v)) :
    IsHom (extract_list ns) := by
  induction ns with
  | nil =>
    intro acc
    simp [extract_list, Except.map, Metrics.append_empty]
  | cons v rest ih =>
    have ihrest : IsHom (extract_list rest) :=
      ih fun v2 hm => h v2 (List.mem_cons_of_mem _ hm)
    have hcomp := isHom_comp (h v (List.mem_cons_self _ _)) ihrest
    intro acc
    have := hcomp acc
    simp only [extract_list]
    simpa using this

/-- The walk only appends: running it on any accumulator equals running
it on the empty accumulator and appending the result.  This is the
order-stability of the accumulation. -/
theorem extract_hom (n : Node) : IsHom (extract_method_metrics n) := by
  refine node_induction (fun m => IsHom (extract_method_metrics m)) ?_ ?_ ?_ ?_ n
  · intro s acc
    simp [extract_method_metrics, Except.map, Metrics.append_empty]
  · intro acc
    simp [extract_method_metrics, Except.map, Metrics.append_empty]
  · intro kvs hmem
    have hch := extract_children_hom_of kvs hmem
    have hcomp := isHom_comp (method_part_hom kvs) hch
    intro acc
    have := hcomp acc
    simp only [extract_method_metrics]
    simpa using this
  · intro ns hmem acc
    simp only [extract_method_metrics]
    exact extract_list_hom_of ns hmem acc

/-! ### Consequences of the homomorphism property -/

theorem hom_error_iff {f : Metrics → Except PyErr Metrics} (hf : IsHom f) {acc : Metrics}
    {e : PyErr} : f acc = .error e ↔ f Metrics.empty = .error e := by
  rw [hf acc]
  rcases h : f Metrics.empty with e2 | d <;> simp [Except.map]

theorem hom_ok_decomp {f : Metrics → Except PyErr Metrics} (hf : IsHom f) {acc out : Metrics}
    (h : f acc = .ok out) : ∃ d, f Metrics.empty = .ok d ∧ out = acc.append d := by
  rw [hf acc] at h
  rcases h0 : f Metrics.empty with e | d <;> rw [h0] at h <;> simp [Except.map] at h
  exact ⟨d, rfl, h.symm⟩

theorem hom_ok_le {f : Metrics → Except PyErr Metrics} (hf : IsHom f) {acc out : Metrics}
    (h : f acc = .ok out) :
    MetricsLe acc out ∧ ∃ d, f Metrics.empty = .ok d ∧ MetricsLe d out := by
  obtain ⟨d, hd, rfl⟩ := hom_ok_decomp hf h
  exact ⟨metricsLe_append_left _ _, d, hd, metricsLe_append_right _ _⟩

theorem extract_children_hom (kvs : List (String × Node)) : IsHom (extract_children kvs) :=
  extract_children_hom_of kvs fun _ v _ => extract_hom v

theorem extract_list_hom (ns : List Node) : IsHom (extract_list ns) :=
  extract_list_hom_of ns fun v _ => extract_hom v

/-! ### A tree without method nodes contributes nothing -/

theorem noMethodKeyKvs_mem {kvs : List (String × Node)} (h : noMethodKeyKvs kvs = true)
    {k : String} {v : Node} (hm : (k, v) ∈ kvs) : noMethodKey v = true := by
  induction kvs with
  | nil => cases hm
  | cons kv rest ih =>
    obtain ⟨k0, v0⟩ := kv
    simp only [noMethodKeyKvs, Bool.and_eq_true] at h
    rcases List.mem_cons.mp hm with heq | hm2
    · cases heq
      exact h.1
    · exact ih h.2 hm2

theorem noMethodKeyList_mem {ns : List Node} (h : noMethodKeyList ns = true)
    {v : Node} (hm : v ∈ ns) : noMethodKey v = true := by
  induction ns with
  | nil => cases hm
  | cons v0 rest ih =>
    simp only [noMethodKeyList, Bool.and_eq_true] at h
    rcases List.mem_cons.mp hm with heq | hm2
    · cases heq
      exact h.1
    · exact ih h.2 hm2

theorem extract_children_noop (kvs : List (String × Node))
    (h : ∀ k v, (k, v) ∈ kvs → ∀ acc, extract_method_metrics v acc = .ok acc) :
    ∀ acc, extract_children kvs acc = .ok acc := by
  induction kvs with
  | nil =>
    intro acc
    simp [extract_children]
  | cons kv rest ih =>
    obtain ⟨k, v⟩ := kv
    intro acc
    have hrest := ih fun k2 v2 hm => h k2 v2 (List.mem_cons_of_mem _ hm)
    rcases hio : isDictOrList v with _ | _
    · simp only [extract_children, hio, Bool.false_eq_true, if_false]
      exact hrest acc
    · simp only [extract_children, hio, if_true]
      rw [h k v (List.mem_cons_self _ _) acc]
      exact hrest acc

theorem extract_list_noop (ns : List Node)
    (h : ∀ v ∈ ns, ∀ acc, extract_method_metrics v acc = .ok acc) :
    ∀ acc, extract_list ns acc = .ok acc := by
  induction ns with
  | nil =>
    intro acc
    simp [extract_list]
  | cons v rest ih =>
    intro acc
    have hrest := ih fun v2 hm => h v2 (List.mem_cons_of_mem _ hm)
    simp only [extract_list]
    rw [h v (List.mem_cons_self _ _) acc]
    exact hrest acc

/-- On a tree with zero method nodes the walk returns its accumulator
unchanged (and cannot fail). -/
theorem noMethod_extract (n : Node) :
    noMethodKey n = true → ∀ acc, extract_method_metrics n acc = .ok acc := by
  refine node_induction
    (fun m => noMethodKey m = true → ∀ acc, extract_method_metrics m acc = .ok acc)
    ?_ ?_ ?_ ?_ n
  · intro s _ acc
    simp [extract_method_metrics]
  · intro _ acc
    simp [extract_method_metrics]
  · intro kvs hmem h acc
    rcases hk : hasKey kvs "Method" with _ | _
    · have h2 : noMethodKeyKvs kvs = true := by
        simp only [noMethodKey, hk, Bool.and_eq_true] at h
        exact h.2
      have hmp : method_part kvs acc = .ok acc := by simp [method_part, hk]
      simp only [extract_method_metrics, hmp]
      exact extract_children_noop kvs
        (fun k v hm => hmem k v hm (noMethodKeyKvs_mem h2 hm)) acc
    · simp [noMethodKey, hk] at h
  · intro ns hmem h acc
    simp only [noMethodKey] at h
    simp only [extract_method_metrics]
    exact extract_list_noop ns (fun v hm => hmem v hm (noMethodKeyList_mem h hm)) acc

/-! ### What happens at a reached node surfaces in the overall result -/

theorem children_mem_ok {kvs : List (String × Node)} {k : String} {v : Node}
    (hm : (k, v) ∈ kvs) (hio : isDictOrList v = true) :
    ∀ {acc out : Metrics}, extract_children kvs acc = .ok out →
    ∃ a o, extract_method_metrics v a = .ok o ∧ MetricsLe o out := by
  induction kvs with
  | nil => cases hm
  | cons kv rest ih =>
    obtain ⟨k0, v0⟩ := kv
    intro acc out h
    rcases List.mem_cons.mp hm with heq | hm2
    · cases heq
      simp only [extract_children, hio, if_true] at h
      rcases hx : extract_method_metrics v acc with e | a1 <;> rw [hx] at h
      · cases h
      · refine ⟨acc, a1, hx, ?_⟩
        exact (hom_ok_le (extract_children_hom rest) h).1
    · rcases hio0 : isDictOrList v0 with _ | _
      · simp only [extract_children, hio0, Bool.false_eq_true, if_false] at h
        exact ih hm2 h
      · simp only [extract_children, hio0, if_true] at h
        rcases hx : extract_method_metrics v0 acc with e | a1 <;> rw [hx] at h
        · cases h
        · exact ih hm2 h

theorem list_mem_ok {ns : List Node} {v : Node} (hm : v ∈ ns) :
    ∀ {acc out : Metrics}, extract_list ns acc = .ok out →
    ∃ a o, extract_method_metrics v a = .ok o ∧ MetricsLe o out := by
  induction ns with
  | nil => cases hm
  | cons v0 rest ih =>
    intro acc out h
    rcases List.mem_cons.mp hm with heq | hm2
    · cases heq
      simp only [extract_list] at h
      rcases hx : extract_method_metrics v acc with e | a1 <;> rw [hx] at h
      · cases h
      · exact ⟨acc, a1, hx, (hom_ok_le (extract_list_hom rest) h).1⟩
    · simp only [extract_list] at h
      rcases hx : extract_method_metrics v0 acc with e | a1 <;> rw [hx] at h
      · cases h
      · exact ih hm2 h

/-- If the walk over the whole tree succeeds, then at every node it
reaches the direct method-handling succeeded, and the values collected
there appear (in order) inside the final sequences. -/
theorem reaches_ok {n m : Node} (hr : Reaches n m) :
    ∀ {acc out : Metrics}, extract_method_metrics n acc = .ok out →
    ∃ d, directContrib m = .ok d ∧ MetricsLe d out := by
  induction hr with
  | refl n0 =>
    intro acc out h
    cases n0 with
    | dict kvs =>
      simp only [extract_method_metrics] at h
      rcases hmp : method_part kvs acc with e | acc1 <;> rw [hmp] at h
      · cases h
      · obtain ⟨hle1, d, hd, hdle⟩ := hom_ok_le (method_part_hom kvs) hmp
        have hle2 := (hom_ok_le (extract_children_hom kvs) h).1
        exact ⟨d, by simpa [directContrib] using hd, metricsLe_trans hdle hle2⟩
    | str s => exact ⟨Metrics.empty, rfl, metricsLe_empty _⟩
    | null => exact ⟨Metrics.empty, rfl, metricsLe_empty _⟩
    | list ns => exact ⟨Metrics.empty, rfl, metricsLe_empty _⟩
  | dictChild hm hio hr2 ih =>
    intro acc out h
    simp only [extract_method_metrics] at h
    rcases hmp : method_part _ acc with e | acc1 <;> rw [hmp] at h
    · cases h
    · obtain ⟨a, o, hx, hle⟩ := children_mem_ok hm hio h
      obtain ⟨d, hd, hdle⟩ := ih hx
      exact ⟨d, hd, metricsLe_trans hdle hle⟩
  | listChild hm hr2 ih =>
    intro acc out h
    simp only [extract_method_metrics] at h
    obtain ⟨a, o, hx, hle⟩ := list_mem_ok hm h
    obtain ⟨d, hd, hdle⟩ := ih hx
    exact ⟨d, hd, metricsLe_trans hdle hle⟩

theorem children_mem_error {kvs : List (String × Node)} {k : String} {v : Node}
    (hm : (k, v) ∈ kvs) (hio : isDictOrList v = true)
    (hv : ∀ acc, ∃ e, extract_method_metrics v acc = .error e) :
    ∀ acc, ∃ e, extract_children kvs acc = .error e := by
  induction kvs with
  | nil => cases hm
  | cons kv rest ih =>
    obtain ⟨k0, v0⟩ := kv
    intro acc
    rcases List.mem_cons.mp hm with heq | hm2
    · cases heq
      obtain ⟨e, he⟩ := hv acc
      exact ⟨e, by simp [extract_children, hio, he]⟩
    · rcases hio0 : isDictOrList v0 with _ | _
      · obtain ⟨e, he⟩ := ih hm2 acc
        exact ⟨e, by simp [extract_children, hio0, he]⟩
      · rcases hx : extract_method_metrics v0 acc with e | a1
        · exact ⟨e, by simp [extract_children, hio0, hx]⟩
        · obtain ⟨e, he⟩ := ih hm2 a1
          exact ⟨e, by simp [extract_children, hio0, hx, he]⟩

theorem list_mem_error {ns : List Node} {v : Node} (hm : v ∈ ns)
    (hv : ∀ acc, ∃ e, extract_method_metrics v acc = .error e) :
    ∀ acc, ∃ e, extract_list ns acc = .error e := by
  induction ns with
  | nil => cases hm
  | cons v0 rest ih =>
    intro acc
    rcases List.mem_cons.mp hm with heq | hm2
    · cases heq
      obtain ⟨e, he⟩ := hv acc
      exact ⟨e, by simp [extract_list, he]⟩
    · rcases hx : extract_method_metrics v0 acc with e | a1
      · exact ⟨e, by simp [extract_list, hx]⟩
      · obtain ⟨e, he⟩ := ih hm2 a1
        exact ⟨e, by simp [extract_list, hx, he]⟩

/-- If the direct method-handling at any reached node fails, the whole
walk fails (with whatever error occurs first). -/
theorem reaches_error {n m : Node} (hr : Reaches n m) :
    ∀ e0, directContrib m = .error e0 →
    ∀ acc, ∃ e, extract_method_metrics n acc = .error e := by
  induction hr with
  | refl n0 =>
    intro e0 hdc acc
    cases n0 with
    | dict kvs =>
      have hmp : method_part kvs acc = .error e0 :=
        (hom_error_iff (method_part_hom kvs)).mpr (by simpa [directContrib] using hdc)
      exact ⟨e0, by simp [extract_method_metrics, hmp]⟩
    | str s => simp [directContrib] at hdc
    | null => simp [directContrib] at hdc
    | list ns => simp [directContrib] at hdc
  | @dictChild kvs k v m2 hm hio hr2 ih =>
    intro e0 hdc acc
    rcases hmp : method_part kvs acc with e | acc1
    · exact ⟨e, by simp [extract_method_metrics, hmp]⟩
    · obtain ⟨e, he⟩ := children_mem_error hm hio (ih e0 hdc) acc1
      exact ⟨e, by simp [extract_method_metrics, hmp, he]⟩
  | listChild hm hr2 ih =>
    intro e0 hdc acc
    obtain ⟨e, he⟩ := list_mem_error hm (ih e0 hdc) acc
    exact ⟨e, by simp [extract_method_metrics, he]⟩

/-! ### Entry-level facts: bad values abort, unrecognized names are no-ops -/

theorem badEntry_error {entry : Node} (h : badRecognizedEntry entry = true) (acc : Metrics) :
    process_metric entry acc = .error .valueError := by
  cases entry with
  | dict kvs =>
    simp only [badRecognizedEntry, Bool.and_eq_true] at h
    obtain ⟨h1, h2⟩ := h
    rcases hn : lookupN kvs "@name" with _ | nval <;> rw [hn] at h1
    · cases h1
    cases nval with
    | str nm =>
      rcases hv : lookupN kvs "@value" with _ | vval <;> rw [hv] at h2
      · cases h2
      cases vval with
      | str s =>
        have hpf : parseFloat s = none := by simpa using h2
        have h1b : nm = "VG" ∨ nm = "Ci" ∨ nm = "Di" ∨ nm = "TLOC" := by
          simpa [or_assoc] using h1
        unfold process_metric
        rcases h1b with rfl | rfl | rfl | rfl <;>
          simp [pyGet, hn, hv, pyFloat, hpf, isStrEq]
      | null => cases h2
      | dict a => cases h2
      | list a => cases h2
    | null => cases h1
    | dict a => cases h1
    | list a => cases h1
  | str s => cases h
  | null => cases h
  | list ns => cases h

theorem entries_bad_error {entries : List Node} {entry : Node} (hm : entry ∈ entries)
    (hbad : badRecognizedEntry entry = true) :
    ∀ acc, ∃ e, process_metrics_list entries acc = .error e := by
  induction entries with
  | nil => cases hm
  | cons e0 rest ih =>
    intro acc
    rcases List.mem_cons.mp hm with heq | hm2
    · cases heq
      exact ⟨.valueError, by simp [process_metrics_list, badEntry_error hbad acc]⟩
    · rcases hx : process_metric e0 acc with e | a1
      · exact ⟨e, by simp [process_metrics_list, hx]⟩
      · obtain ⟨e, he⟩ := ih hm2 a1
        exact ⟨e, by simp [process_metrics_list, hx, he]⟩

theorem method_bad_error {method entry : Node} {entries : List Node}
    (hce : cleanMetricEntries method = some entries) (hm : entry ∈ entries)
    (hbad : badRecognizedEntry entry = true) :
    ∀ acc, ∃ e, process_method method acc = .error e := by
  intro acc
  cases method with
  | dict kvs =>
    simp only [cleanMetricEntries] at hce
    rcases hl : lookupN kvs "Metrics" with _ | mv
    · simp [hl] at hce
    cases mv with
    | dict mkvs =>
      rcases hl2 : lookupN mkvs "Metric" with _ | ment
      · simp [hl, hl2] at hce
      · simp only [hl, hl2, Option.some.injEq] at hce
        subst hce
        obtain ⟨e, he⟩ := entries_bad_error hm hbad acc
        exact ⟨e, by simp [process_method, pyContains, pySubscript, hasKey, hl, hl2, he]⟩
    | str s => simp [hl] at hce
    | null => simp [hl] at hce
    | list ns => simp [hl] at hce
  | str s => simp [cleanMetricEntries] at hce
  | null => simp [cleanMetricEntries] at hce
  | list ns => simp [cleanMetricEntries] at hce

theorem methods_bad_error {methods : List Node} {method : Node} (hm : method ∈ methods)
    (hv : ∀ acc, ∃ e, process_method method acc = .error e) :
    ∀ acc, ∃ e, process_methods methods acc = .error e := by
  induction methods with
  | nil => cases hm
  | cons m0 rest ih =>
    intro acc
    rcases List.mem_cons.mp hm with heq | hm2
    · cases heq
      obtain ⟨e, he⟩ := hv acc
      exact ⟨e, by simp [process_methods, he]⟩
    · rcases hx : process_method m0 acc with e | a1
      · exact ⟨e, by simp [process_methods, hx]⟩
      · obtain ⟨e, he⟩ := ih hm2 a1
        exact ⟨e, by simp [process_methods, hx, he]⟩

theorem node_bad_error {m method entry : Node} {methods entries : List Node}
    (hml : methodListOf m = some methods) (hmm : method ∈ methods)
    (hce : cleanMetricEntries method = some entries) (hment : entry ∈ entries)
    (hbad : badRecognizedEntry entry = true) :
    ∃ e, directContrib m = .error e := by
  cases m with
  | dict kvs =>
    simp only [methodListOf] at hml
    rcases hl : lookupN kvs "Method" with _ | mv
    · simp [hl] at hml
    · simp only [hl, Option.map_some', Option.some.injEq] at hml
      subst hml
      obtain ⟨e, he⟩ :=
        methods_bad_error hmm (method_bad_error hce hment hbad) Metrics.empty
      exact ⟨e, by simp [directContrib, method_part, hasKey, hl, he]⟩
  | str s => simp [methodListOf] at hml
  | null => simp [methodListOf] at hml
  | list ns => simp [methodListOf] at hml

theorem unrecognized_noop {entry : Node} (h : isUnrecognizedEntry entry = true) (acc : Metrics) :
    process_metric entry acc = .ok acc := by
  cases entry with
  | dict kvs =>
    simp only [isUnrecognizedEntry, Bool.not_eq_true', Bool.or_eq_false_iff] at h
    obtain ⟨⟨⟨h1, h2⟩, h3⟩, h4⟩ := h
    simp [process_metric, pyGet, h1, h2, h3, h4]
  | str s => cases h
  | null => cases h
  | list ns => cases h

theorem filter_unrecognized_eq (entries : List Node) (acc : Metrics) :
    process_metrics_list (entries.filter fun e => !isUnrecognizedEntry e) acc =
    process_metrics_list entries acc := by
  induction entries generalizing acc with
  | nil => rfl
  | cons e0 rest ih =>
    rcases hu : isUnrecognizedEntry e0 with _ | _
    · simp only [List.filter_cons, hu, Bool.not_false, if_true]
      simp only [process_metrics_list]
      rcases hx : process_metric e0 acc with e | a1 <;> simp [hx, ih]
    · simp only [List.filter_cons, hu, Bool.not_true, Bool.false_eq_true, if_false]
      rw [ih acc]
      simp [process_metrics_list, unrecognized_noop hu acc]

theorem compute_results_total {mm : Metrics} {rr : Results} (h : compute_results mm = .ok rr) :
    rr.total_methods = mm.mccabe_cyclomatic_complexity.length := by
  unfold compute_results at h
  split at h
  · rcases h1 : pyAvg mm.mccabe_cyclomatic_complexity with e | a <;> rw [h1] at h
    · cases h
    rcases h2 : pyAvg mm.system_complexity with e | b <;> rw [h2] at h
    · cases h
    rcases h3 : pyAvg mm.data_complexity with e | c <;> rw [h3] at h
    · cases h
    rcases h4 : pyAvg mm.total_lines_of_code with e | d <;> rw [h4] at h
    · cases h
    · cases h
      rfl
  · cases h
    rfl

/-! ### Single-vs-list normalization symmetry -/

theorem toNodeList_not_list {v : Node} (hv : isList v = false) : toNodeList v = [v] := by
  cases v with
  | list ns => cases hv
  | str s => rfl
  | null => rfl
  | dict kvs => rfl

theorem lookupN_append (l1 l2 : List (String × Node)) (key : String) :
    lookupN (l1 ++ l2) key =
      match lookupN l1 key with
      | some w => some w
      | none => lookupN l2 key := by
  induction l1 with
  | nil => rfl
  | cons kv rest ih =>
    obtain ⟨k0, v0⟩ := kv
    by_cases hk : k0 = key
    · simp [lookupN, hk]
    · simp [lookupN, hk, ih]

theorem lookupN_mid_ne (l1 l2 : List (String × Node)) (k0 key : String) (x : Node)
    (h : k0 ≠ key) :
    lookupN (l1 ++ (k0, x) :: l2) key =
      match lookupN l1 key with
      | some w => some w
      | none => lookupN l2 key := by
  rw [lookupN_append]
  rcases lookupN l1 key with _ | w <;> simp [lookupN, h]

theorem lookupN_mid_eq (l1 l2 : List (String × Node)) (k : String) (x : Node) :
    lookupN (l1 ++ (k, x) :: l2) k =
      match lookupN l1 k with
      | some w => some w
      | none => some x := by
  rw [lookupN_append]
  rcases lookupN l1 k with _ | w <;> simp [lookupN]

theorem extract_children_append (l1 l2 : List (String × Node)) (acc : Metrics) :
    extract_children (l1 ++ l2) acc =
      match extract_children l1 acc with
      | .error e => .error e
      | .ok a => extract_children l2 a := by
  induction l1 generalizing acc with
  | nil => simp [extract_children]
  | cons kv rest ih =>
    obtain ⟨k0, v0⟩ := kv
    rcases hio : isDictOrList v0 with _ | _
    · simp only [List.cons_append, extract_children, hio, Bool.false_eq_true, if_false]
      exact ih acc
    · simp only [List.cons_append, extract_children, hio, if_true]
      rcases hx : extract_method_metrics v0 acc with e | a1 <;> simp [hx, ih]

/-- Walking a child value `v` and walking the child value `[v]` give
identical results: for a dict or a string/None alike, the one-element
list just routes to the same recursion (or to the same no-op). -/
theorem extract_step_wrap (k : String) {v : Node} (hv : isList v = false) (acc : Metrics) :
    extract_children [(k, v)] acc = extract_children [(k, .list [v])] acc := by
  cases v with
  | dict kvs =>
    simp only [extract_children, extract_method_metrics, extract_list, isDictOrList, if_true]
    rcases hmp : method_part kvs acc with e | a1 <;> simp only [hmp]
    rcases hch : extract_children kvs a1 with e2 | a2 <;> simp [hch]
  | str s =>
    simp [extract_children, extract_method_metrics, extract_list, isDictOrList]
  | null =>
    simp [extract_children, extract_method_metrics, extract_list, isDictOrList]
  | list ns => cases hv

theorem method_part_wrap (kvs1 kvs2 : List (String × Node)) (k : String) {v : Node}
    (hv : isList v = false) (acc : Metrics) :
    method_part (kvs1 ++ (k, v) :: kvs2) acc =
    method_part (kvs1 ++ (k, .list [v]) :: kvs2) acc := by
  unfold method_part hasKey
  by_cases hk : k = "Method"
  · rw [hk]
    rw [lookupN_mid_eq kvs1 kvs2 "Method" v, lookupN_mid_eq kvs1 kvs2 "Method" (.list [v])]
    rcases h1 : lookupN kvs1 "Method" with _ | w
    · have hr : toNodeList (Node.list [v]) = [v] := rfl
      simp [toNodeList_not_list hv, hr]
    · simp
  · rw [lookupN_mid_ne kvs1 kvs2 k "Method" v hk,
        lookupN_mid_ne kvs1 kvs2 k "Method" (.list [v]) hk]

/-- Wrapping any single (non-list) dict value into a one-element list
does not change what the walk extracts from the node.  Applied at a
`'Method'` key this is the method-list normalization symmetry; applied
at a `'Metric'` key of a `Metrics` dict it covers the walking half of
the metric-entry symmetry. -/
theorem extract_wrap_value (kvs1 kvs2 : List (String × Node)) (k : String) {v : Node}
    (hv : isList v = false) (acc : Metrics) :
    extract_method_metrics (.dict (kvs1 ++ (k, v) :: kvs2)) acc =
    extract_method_metrics (.dict (kvs1 ++ (k, .list [v]) :: kvs2)) acc := by
  simp only [extract_method_metrics]
  rw [method_part_wrap kvs1 kvs2 k hv acc]
  rcases hmp : method_part (kvs1 ++ (k, .list [v]) :: kvs2) acc with e | acc1
  · rfl
  · show extract_children (kvs1 ++ (k, v) :: kvs2) acc1 =
      extract_children (kvs1 ++ (k, .list [v]) :: kvs2) acc1
    rw [extract_children_append kvs1 ((k, v) :: kvs2),
        extract_children_append kvs1 ((k, .list [v]) :: kvs2)]
    rcases hc1 : extract_children kvs1 acc1 with e | a2 <;> simp only [hc1]
    have e1 := extract_children_append [(k, v)] kvs2 a2
    have e2 := extract_children_append [(k, .list [v])] kvs2 a2
    simp only [List.singleton_append] at e1 e2
    rw [e1, e2, extract_step_wrap k hv a2]

theorem process_method_wrap (m1 m2 i1 i2 : List (String × Node)) {e : Node}
    (he : isList e = false) (acc : Metrics) :
    process_method
      (.dict (m1 ++ ("Metrics", .dict (i1 ++ ("Metric", e) :: i2)) :: m2)) acc =
    process_method
      (.dict (m1 ++ ("Metrics", .dict (i1 ++ ("Metric", .list [e]) :: i2)) :: m2)) acc := by
  have hkm : ∀ x : Node, hasKey (m1 ++ ("Metrics", x) :: m2) "Metrics" = true := by
    intro x
    unfold hasKey
    rw [lookupN_mid_eq]
    rcases lookupN m1 "Metrics" with _ | u <;> simp
  unfold process_method
  simp only [pyContains, pySubscript, hkm, lookupN_mid_eq]
  rcases h1 : lookupN m1 "Metrics" with _ | u <;> simp only [h1]
  · have hkm2 : ∀ w : Node, hasKey (i1 ++ ("Metric", w) :: i2) "Metric" = true := by
      intro w
      unfold hasKey
      rw [lookupN_mid_eq]
      rcases lookupN i1 "Metric" with _ | t <;> simp
    simp only [pyContains, pySubscript, hkm2, lookupN_mid_eq]
    rcases h2 : lookupN i1 "Metric" with _ | t <;> simp only [h2]
    rw [toNodeList_not_list he]
    rfl

theorem extract_method_dict_wrap (m1 m2 i1 i2 : List (String × Node)) {e : Node}
    (he : isList e = false) (acc : Metrics) :
    extract_method_metrics
      (.dict (m1 ++ ("Metrics", .dict (i1 ++ ("Metric", e) :: i2)) :: m2)) acc =
    extract_method_metrics
      (.dict (m1 ++ ("Metrics", .dict (i1 ++ ("Metric", .list [e]) :: i2)) :: m2)) acc := by
  simp only [extract_method_metrics]
  have hmp : method_part (m1 ++ ("Metrics", .dict (i1 ++ ("Metric", e) :: i2)) :: m2) acc =
      method_part (m1 ++ ("Metrics", .dict (i1 ++ ("Metric", .list [e]) :: i2)) :: m2) acc := by
    unfold method_part hasKey
    rw [lookupN_mid_ne m1 m2 "Metrics" "Method" _ (by decide),
        lookupN_mid_ne m1 m2 "Metrics" "Method" _ (by decide)]
  rw [hmp]
  rcases hmpv : method_part
      (m1 ++ ("Metrics", .dict (i1 ++ ("Metric", .list [e]) :: i2)) :: m2) acc
    with er | acc1 <;> simp only [hmpv]
  rw [extract_children_append m1, extract_children_append m1]
  rcases hc1 : extract_children m1 acc1 with er | a2 <;> simp only [hc1]
  simp only [extract_children, isDictOrList, if_true]
  rw [extract_wrap_value i1 i2 "Metric" he a2]

theorem extract_root_metric_wrap (kvs1 kvs2 m1 m2 i1 i2 : List (String × Node)) {e : Node}
    (he : isList e = false) (acc : Metrics) :
    extract_method_metrics (.dict (kvs1 ++ ("Method",
      .dict (m1 ++ ("Metrics", .dict (i1 ++ ("Metric", e) :: i2)) :: m2)) :: kvs2)) acc =
    extract_method_metrics (.dict (kvs1 ++ ("Method",
      .dict (m1 ++ ("Metrics", .dict (i1 ++ ("Metric", .list [e]) :: i2)) :: m2)) :: kvs2)) acc := by
  simp only [extract_method_metrics]
  have hmp : method_part (kvs1 ++ ("Method",
        .dict (m1 ++ ("Metrics", .dict (i1 ++ ("Metric", e) :: i2)) :: m2)) :: kvs2) acc =
      method_part (kvs1 ++ ("Method",
        .dict (m1 ++ ("Metrics", .dict (i1 ++ ("Metric", .list [e]) :: i2)) :: m2)) :: kvs2) acc := by
    unfold method_part hasKey
    rw [lookupN_mid_eq kvs1 kvs2 "Method", lookupN_mid_eq kvs1 kvs2 "Method"]
    rcases h1 : lookupN kvs1 "Method" with _ | w <;> simp only [h1]
    · simp only [Option.isSome_some, Option.getD_some, if_true]
      show process_methods
          [.dict (m1 ++ ("Metrics", .dict (i1 ++ ("Metric", e) :: i2)) :: m2)] acc =
        process_methods
          [.dict (m1 ++ ("Metrics", .dict (i1 ++ ("Metric", .list [e]) :: i2)) :: m2)] acc
      simp only [process_methods]
      rw [process_method_wrap m1 m2 i1 i2 he acc]
  rw [hmp]
  rcases hmpv : method_part (kvs1 ++ ("Method",
      .dict (m1 ++ ("Metrics", .dict (i1 ++ ("Metric", .list [e]) :: i2)) :: m2)) :: kvs2) acc
    with er | acc1 <;> simp only [hmpv]
  rw [extract_children_append kvs1, extract_children_append kvs1]
  rcases hc1 : extract_children kvs1 acc1 with er | a2 <;> simp only [hc1]
  simp only [extract_children, isDictOrList, if_true]
  rw [extract_method_dict_wrap m1 m2 i1 i2 he a2]

/-! ### The claims -/

/-- C1: for every well-formed input containing zero Method nodes, the
program reports all four averages as 0, reports a total method count of
0, and does not render the additional-statistics section. -/
theorem c1_zero_methods_zero_report (data : Node) (path : String)
    (h : noMethodKey data = true) :
    parse_jasome_xml data = .ok (⟨0, 0, 0, 0, 0⟩, Metrics.empty) ∧
    main_run true path data = .report (display_results ⟨0, 0, 0, 0, 0⟩ Metrics.empty) ∧
    (display_results ⟨0, 0, 0, 0, 0⟩ Metrics.empty).all (fun l => !isAddStatsLine l) = true := by
  have hex := noMethod_extract data h Metrics.empty
  have hparse : parse_jasome_xml data = .ok (⟨0, 0, 0, 0, 0⟩, Metrics.empty) := by
    unfold parse_jasome_xml
    rw [hex]
    simp [compute_results, Metrics.empty]
  refine ⟨hparse, ?_, ?_⟩
  · simp [main_run, hparse]
  · rfl

theorem c1_witness :
    noMethodKey treeNoMethods = true ∧
    (parse_jasome_xml treeNoMethods = .ok (⟨0, 0, 0, 0, 0⟩, Metrics.empty) ∧
     main_run true "output.xml" treeNoMethods =
       .report (display_results ⟨0, 0, 0, 0, 0⟩ Metrics.empty) ∧
     (display_results ⟨0, 0, 0, 0, 0⟩ Metrics.empty).all (fun l => !isAddStatsLine l) = true) := by
  have h : noMethodKey treeNoMethods = true := by
    simp [treeNoMethods, noMethodKey, noMethodKeyKvs, noMethodKeyList, hasKey, lookupN]
  exact ⟨h, c1_zero_methods_zero_report treeNoMethods "output.xml" h⟩

/-- C2: if the collected VG sequence is non-empty but one of the other
three sequences is empty, `parse_jasome_xml` hits an unguarded
`ZeroDivisionError` computing that empty sequence's average; the error
reaches the top-level catch-all, so the run prints the error and trace
and produces no statistics report. -/
theorem c2_unguarded_zero_division (data : Node) (path : String) (m : Metrics)
    (hex : extract_method_metrics data Metrics.empty = .ok m)
    (hvg : m.mccabe_cyclomatic_complexity ≠ [])
    (hempty : m.system_complexity = [] ∨ m.data_complexity = [] ∨
      m.total_lines_of_code = []) :
    parse_jasome_xml data = .error .zeroDivisionError ∧
    main_run true path data = .errorTrace .zeroDivisionError := by
  have hcr : compute_results m = .error .zeroDivisionError := by
    by_cases hs : m.system_complexity = []
    · simp [compute_results, pyAvg, List.length_eq_zero, hvg, hs]
    · by_cases hd : m.data_complexity = []
      · simp [compute_results, pyAvg, List.length_eq_zero, hvg, hs, hd]
      · have ht : m.total_lines_of_code = [] := by tauto
        simp [compute_results, pyAvg, List.length_eq_zero, hvg, hs, hd, ht]
  exact ⟨by simp [parse_jasome_xml, hex, hcr],
         by simp [main_run, parse_jasome_xml, hex, hcr]⟩

theorem c2_witness :
    extract_method_metrics treeVGOnly Metrics.empty = .ok ⟨[3], [], [], []⟩ ∧
    (parse_jasome_xml treeVGOnly = .error .zeroDivisionError ∧
     main_run true "output.xml" treeVGOnly = .errorTrace .zeroDivisionError) := by
  have h3 : parseFloatRep "3" = some (false, 3, 0, 0, 0) := by decide
  have hex : extract_method_metrics treeVGOnly Metrics.empty = .ok ⟨[3], [], [], []⟩ := by
    simp [treeVGOnly, methodVGOnly, entryVG3, extract_method_metrics, extract_children,
      extract_list, method_part, process_methods, process_method, process_metrics_list,
      process_metric, pyGet, pyContains, pySubscript, pyFloat, parseFloat, h3, ratOfRep,
      applySign, lookupN, hasKey, toNodeList, isDictOrList, isStrEq, strContainsSub,
      charsSub, charsPre, Metrics.empty]
  exact ⟨hex, c2_unguarded_zero_division treeVGOnly "output.xml" _ hex
    (by simp) (Or.inl rfl)⟩

/-- C3: a recognized metric entry carrying a non-numeric `value`
attribute aborts the run: the error propagates to the top-level
catch-all, the program prints an error and trace, and no statistics
report is produced. -/
theorem c3_nonnumeric_value_aborts {root m method entry : Node}
    {methods entries : List Node} (path : String)
    (hr : Reaches root m) (hml : methodListOf m = some methods)
    (hmm : method ∈ methods) (hce : cleanMetricEntries method = some entries)
    (hment : entry ∈ entries) (hbad : badRecognizedEntry entry = true) :
    ∃ e, parse_jasome_xml root = .error e ∧ main_run true path root = .errorTrace e := by
  obtain ⟨e0, he0⟩ := node_bad_error hml hmm hce hment hbad
  obtain ⟨e, he⟩ := reaches_error hr e0 he0 Metrics.empty
  exact ⟨e, by simp [parse_jasome_xml, he], by simp [main_run, parse_jasome_xml, he]⟩

theorem c3_witness :
    Reaches treeBad treeBad ∧ methodListOf treeBad = some [methodBad] ∧
    methodBad ∈ [methodBad] ∧
    cleanMetricEntries methodBad =
      some [.dict [("@name", .str "VG"), ("@value", .str "abc")]] ∧
    badRecognizedEntry (.dict [("@name", .str "VG"), ("@value", .str "abc")]) = true ∧
    (∃ e, parse_jasome_xml treeBad = .error e ∧
      main_run true "output.xml" treeBad = .errorTrace e) := by
  have h1 : methodListOf treeBad = some [methodBad] := by
    simp [treeBad, methodListOf, lookupN, toNodeList, methodBad]
  have h2 : cleanMetricEntries methodBad =
      some [.dict [("@name", .str "VG"), ("@value", .str "abc")]] := by
    simp [methodBad, cleanMetricEntries, lookupN, toNodeList]
  have h3 : badRecognizedEntry (.dict [("@name", .str "VG"), ("@value", .str "abc")]) = true := by
    have habc : parseFloatRep "abc" = none := by decide
    simp [badRecognizedEntry, lookupN, parseFloat, habc]
  exact ⟨Reaches.refl _, h1, List.mem_singleton.mpr rfl, h2, h3,
    c3_nonnumeric_value_aborts "output.xml" (Reaches.refl _) h1
      (List.mem_singleton.mpr rfl) h2 (List.mem_singleton.mpr rfl) h3⟩

/-- C4: when the input path does not exist, the program prints a usage
hint, produces no statistics output, and terminates normally with
success status without raising. -/
theorem c4_missing_file_usage_hint (path : String) (data : Node) :
    main_run false path data = .usageHint path ∧
    (∀ lines, main_run false path data ≠ ProgramOutput.report lines) ∧
    exit_status (main_run false path data) = 0 := by
  refine ⟨rfl, ?_, rfl⟩
  intro lines h
  simp [main_run] at h

theorem c4_witness :
    main_run false "missing.xml" Node.null = .usageHint "missing.xml" ∧
    (∀ lines, main_run false "missing.xml" Node.null ≠ ProgramOutput.report lines) ∧
    exit_status (main_run false "missing.xml" Node.null) = 0 :=
  c4_missing_file_usage_hint "missing.xml" Node.null

/-- C5: for every input, the reported total method count equals the
length of the collected cyclomatic-complexity (VG) sequence. -/
theorem c5_total_is_vg_length (data : Node) (r : Results) (m : Metrics)
    (h : parse_jasome_xml data = .ok (r, m)) :
    r.total_methods = m.mccabe_cyclomatic_complexity.length := by
  unfold parse_jasome_xml at h
  rcases hex : extract_method_metrics data Metrics.empty with e | m0 <;> rw [hex] at h
  · simp at h
  · rcases hcr : compute_results m0 with e | r0
    · simp [hcr] at h
    · simp only [hcr, Except.ok.injEq, Prod.mk.injEq] at h
      obtain ⟨rfl, rfl⟩ := h
      exact compute_results_total hcr

theorem c5_witness :
    parse_jasome_xml treeFull = .ok (⟨1, 3, 5, 2, 40⟩, ⟨[3], [5], [2], [40]⟩) ∧
    (⟨1, 3, 5, 2, 40⟩ : Results).total_methods =
      (⟨[3], [5], [2], [40]⟩ : Metrics).mccabe_cyclomatic_complexity.length := by
  have h3 : parseFloatRep "3" = some (false, 3, 0, 0, 0) := by decide
  have h5 : parseFloatRep "5" = some (false, 5, 0, 0, 0) := by decide
  have h2 : parseFloatRep "2" = some (false, 2, 0, 0, 0) := by decide
  have h40 : parseFloatRep "40" = some (false, 40, 0, 0, 0) := by decide
  have hp : parse_jasome_xml treeFull = .ok (⟨1, 3, 5, 2, 40⟩, ⟨[3], [5], [2], [40]⟩) := by
    simp [treeFull, methodFull, entryVG3, parse_jasome_xml, extract_method_metrics,
      extract_children, extract_list, method_part, process_methods, process_method,
      process_metrics_list, process_metric, pyGet, pyContains, pySubscript, pyFloat,
      parseFloat, h3, h5, h2, h40, ratOfRep, applySign, lookupN, hasKey, toNodeList,
      isDictOrList, isStrEq, strContainsSub, charsSub, charsPre, Metrics.empty,
      compute_results, pyAvg]
  exact ⟨hp, c5_total_is_vg_length treeFull _ _ hp⟩

/-- C6: extraction produces exactly the same four metric sequences
whether a node's `Method` value is a single (non-list) node or the
one-element list containing it, and likewise whether a method's
`Metrics/Metric` child is a single entry or the one-element list
containing that entry. -/
theorem c6_normalization_symmetry :
    (∀ (kvs1 kvs2 : List (String × Node)) (v : Node) (acc : Metrics), isList v = false →
      extract_method_metrics (.dict (kvs1 ++ ("Method", v) :: kvs2)) acc =
      extract_method_metrics (.dict (kvs1 ++ ("Method", .list [v]) :: kvs2)) acc) ∧
    (∀ (kvs1 kvs2 m1 m2 i1 i2 : List (String × Node)) (e : Node) (acc : Metrics),
      isList e = false →
      extract_method_metrics (.dict (kvs1 ++ ("Method",
        .dict (m1 ++ ("Metrics", .dict (i1 ++ ("Metric", e) :: i2)) :: m2)) :: kvs2)) acc =
      extract_method_metrics (.dict (kvs1 ++ ("Method",
        .dict (m1 ++ ("Metrics", .dict (i1 ++ ("Metric", .list [e]) :: i2)) :: m2)) :: kvs2)) acc) :=
  ⟨fun kvs1 kvs2 _ acc hv => extract_wrap_value kvs1 kvs2 "Method" hv acc,
   fun kvs1 kvs2 m1 m2 i1 i2 _ acc he =>
     extract_root_metric_wrap kvs1 kvs2 m1 m2 i1 i2 he acc⟩

theorem c6_witness :
    extract_method_metrics (.dict [("Method", methodVGOnly)]) Metrics.empty =
      extract_method_metrics (.dict [("Method", .list [methodVGOnly])]) Metrics.empty ∧
    extract_method_metrics
        (.dict [("Method", .dict [("Metrics", .dict [("Metric", entryVG3)])])]) Metrics.empty =
      extract_method_metrics
        (.dict [("Method", .dict [("Metrics", .dict [("Metric", .list [entryVG3])])])])
        Metrics.empty :=
  ⟨c6_normalization_symmetry.1 [] [] methodVGOnly Metrics.empty rfl,
   c6_normalization_symmetry.2 [] [] [] [] [] [] entryVG3 Metrics.empty rfl⟩

/-- C7: metric entries whose name is not one of `VG`, `Ci`, `Di`,
`TLOC` never appear in and never perturb the collected sequences:
processing a metric-entry list with all unrecognized entries removed
yields exactly the processing of the full list, and each unrecognized
entry is a strict no-op. -/
theorem c7_unrecognized_ignored :
    (∀ entries acc,
      process_metrics_list (entries.filter fun e => !isUnrecognizedEntry e) acc =
      process_metrics_list entries acc) ∧
    (∀ entry acc, isUnrecognizedEntry entry = true →
      process_metric entry acc = .ok acc) :=
  ⟨filter_unrecognized_eq, fun _ acc h => unrecognized_noop h acc⟩

theorem c7_witness :
    process_metrics_list
      ([.dict [("@name", .str "XYZ"), ("@value", .str "9")], entryVG3].filter
        fun e => !isUnrecognizedEntry e) Metrics.empty =
      process_metrics_list [.dict [("@name", .str "XYZ"), ("@value", .str "9")], entryVG3]
        Metrics.empty ∧
    isUnrecognizedEntry (.dict [("@name", .str "XYZ"), ("@value", .str "9")]) = true ∧
    process_metric (.dict [("@name", .str "XYZ"), ("@value", .str "9")]) Metrics.empty =
      .ok Metrics.empty := by
  have hu : isUnrecognizedEntry (.dict [("@name", .str "XYZ"), ("@value", .str "9")]) = true := by
    simp [isUnrecognizedEntry, lookupN, isStrEq]
  exact ⟨c7_unrecognized_ignored.1 _ _, hu, c7_unrecognized_ignored.2 _ _ hu⟩

/-- C8: the walk recurses into every dict-or-list child value
regardless of whether a Method key was found, so whenever the walk over
the whole tree succeeds, every reached node's direct method handling
succeeded and the metrics collected there appear inside the final
sequences — methods at any nesting depth are collected. -/
theorem c8_all_reached_methods_collected {root m : Node} {acc out : Metrics}
    (hr : Reaches root m) (hex : extract_method_metrics root acc = .ok out) :
    ∃ d, directContrib m = .ok d ∧ MetricsLe d out :=
  reaches_ok hr hex

theorem c8_witness :
    ∃ d, directContrib classFull = .ok d ∧ MetricsLe d ⟨[3], [5], [2], [40]⟩ := by
  have h3 : parseFloatRep "3" = some (false, 3, 0, 0, 0) := by decide
  have h5 : parseFloatRep "5" = some (false, 5, 0, 0, 0) := by decide
  have h2 : parseFloatRep "2" = some (false, 2, 0, 0, 0) := by decide
  have h40 : parseFloatRep "40" = some (false, 40, 0, 0, 0) := by decide
  have hex : extract_method_metrics treeFull Metrics.empty = .ok ⟨[3], [5], [2], [40]⟩ := by
    simp [treeFull, methodFull, entryVG3, extract_method_metrics, extract_children,
      extract_list, method_part, process_methods, process_method, process_metrics_list,
      process_metric, pyGet, pyContains, pySubscript, pyFloat, parseFloat, h3, h5, h2,
      h40, ratOfRep, applySign, lookupN, hasKey, toNodeList, isDictOrList, isStrEq,
      strContainsSub, charsSub, charsPre, Metrics.empty]
  have hr : Reaches treeFull classFull := by
    show Reaches (Node.dict [("Project", Node.dict [("Package", classFull)])]) classFull
    exact Reaches.dictChild (List.mem_singleton.mpr rfl) rfl
      (Reaches.dictChild (List.mem_singleton.mpr rfl) rfl (Reaches.refl _))
  exact c8_all_reached_methods_collected hr hex

/-- C9: the whole pipeline is a pure function of the parsed input, so
two runs on the same file produce identical output; moreover, the
extractor accumulates by appending to its accumulator independently of
earlier contents, so the collected order is stable. -/
theorem c9_deterministic_output :
    (∀ fileExists path data out1 out2,
      main_run fileExists path data = out1 → main_run fileExists path data = out2 →
      out1 = out2) ∧
    (∀ n acc, extract_method_metrics n acc =
      (extract_method_metrics n Metrics.empty).map fun d => acc.append d) :=
  ⟨fun _ _ _ _ _ h1 h2 => h1 ▸ h2 ▸ rfl, fun n acc => extract_hom n acc⟩

theorem c9_witness :
    main_run true "output.xml" treeNoMethods = main_run true "output.xml" treeNoMethods ∧
    extract_method_metrics treeNoMethods Metrics.empty =
      (extract_method_metrics treeNoMethods Metrics.empty).map
        fun d => Metrics.empty.append d :=
  ⟨c9_deterministic_output.1 true "output.xml" treeNoMethods _ _ rfl rfl,
   c9_deterministic_output.2 treeNoMethods Metrics.empty⟩

/-- C10: a recognized metric entry with no `value` attribute does not
fail: the value defaults to the string `'0'`, which parses to `0.0` and
is appended to the matching sequence. -/
theorem c10_missing_value_defaults_zero {kvs : List (String × Node)} {nm : String}
    (acc : Metrics)
    (h1 : lookupN kvs "@name" = some (.str nm))
    (h2 : nm = "VG" ∨ nm = "Ci" ∨ nm = "Di" ∨ nm = "TLOC")
    (h3 : lookupN kvs "@value" = none) :
    process_metric (.dict kvs) acc = .ok (appendMetricByName nm 0 acc) := by
  have hrep : parseFloatRep "0" = some (false, 0, 0, 0, 0) := by decide
  have hf : parseFloat "0" = some 0 := by
    simp [parseFloat, hrep, ratOfRep, applySign]
  rcases h2 with rfl | rfl | rfl | rfl <;>
    simp [process_metric, pyGet, h1, h3, pyFloat, hf, isStrEq, appendMetricByName]

theorem c10_witness :
    lookupN [("@name", Node.str "VG")] "@name" = some (.str "VG") ∧
    lookupN [("@name", Node.str "VG")] "@value" = none ∧
    process_metric (.dict [("@name", .str "VG")]) Metrics.empty =
      .ok (appendMetricByName "VG" 0 Metrics.empty) := by
  have h1 : lookupN [("@name", Node.str "VG")] "@name" = some (.str "VG") := by
    simp [lookupN]
  have h3 : lookupN [("@name", Node.str "VG")] "@value" = none := by
    simp [lookupN]
  exact ⟨h1, h3,
    c10_missing_value_defaults_zero Metrics.empty h1 (Or.inl rfl) h3⟩
